import Mathlib

/-!
Shallow embedding of the prime generator in src/aisu_prime_generator.py.

Python integers are arbitrary precision, so every integer value is modelled
by Lean's Int.  Python's floor division and remainder agree with Lean's
Int division and remainder (ediv and emod) whenever the divisor is positive,
which is the case at every division site reached by the claims considered
here; where a claim needs a positive modulus this appears as an explicit
hypothesis.

The generator functions (candidate_stream, primes) are modelled in two ways:
a block-unrolled denotation that returns the finite list of values emitted
while scanning a given number of wheel blocks, and an operational small-step
relation on an explicit cursor state, matching the loop structure of the
source line by line.
-/

namespace Aisu

/-! ### Primality: is_prime_64 (source lines 10-41)

After the `n < 2` guard the remaining computation only ever sees positive
integers, so it is carried out on Nat; `Int.toNat` mediates.  The two Python
while-loops (extracting the odd part of n-1, and fast modular exponentiation
inside pow) are given a structural fuel argument that is always sufficient
on the inputs actually reached (fuel d bounds the number of halvings of d).
-/

/-- Fixed trial-division list from the source: 2,3,5,7,11,13,17,19,23,29,31,37. -/
def smallPrimes : List Nat := [2, 3, 5, 7, 11, 13, 17, 19, 23, 29, 31, 37]

/-- Fixed Miller-Rabin witness list from the source. -/
def mrBases : List Nat := [2, 325, 9375, 28178, 450775, 9780504, 1795265022]

/-- Small-prime loop: `some true` on an exact match, `some false` on a proper
divisor, `none` when the loop falls through to the Miller-Rabin phase. -/
def trialSmall (n : Nat) : List Nat → Option Bool
  | [] => none
  | p :: ps =>
    if n = p then some true
    else if n % p = 0 then some false
    else trialSmall n ps

/-- Loop `while d % 2 == 0: d //= 2; s += 1` from the source.  The fuel is
structural; fuel = d suffices for every d reached (d is at least 1 there). -/
def split2 (fuel : Nat) (d : Nat) (s : Nat) : Nat × Nat :=
  match fuel with
  | 0 => (d, s)
  | fuel + 1 => if d % 2 = 0 then split2 fuel (d / 2) (s + 1) else (d, s)

/-- Fast modular exponentiation, the semantics of Python `pow(a, d, n)`.
The fuel is structural; fuel = d suffices since d at least halves each call. -/
def powMod (fuel : Nat) (a d n : Nat) : Nat :=
  match fuel, d with
  | _, 0 => 1 % n
  | 0, _ => 0
  | fuel + 1, d =>
    let h := powMod fuel ((a * a) % n) (d / 2) n
    if d % 2 = 1 then (h * (a % n)) % n else h

/-- Inner squaring loop: `for _ in range(s1): x = x*x % n; if x == n-1: break`,
returning true exactly when the break fires (the witness passes). -/
def mrSquare (n x : Nat) : Nat → Bool
  | 0 => false
  | k + 1 =>
    let x2 := (x * x) % n
    if x2 = n - 1 then true else mrSquare n x2 k

/-- One Miller-Rabin base from the source loop body: reduce a mod n, skip when
the reduction is 0, otherwise run the strong-probable-prime test. -/
def mrBase (n d : Nat) (s : Nat) (a : Nat) : Bool :=
  let a := a % n
  if a = 0 then true
  else
    let x := powMod d a d n
    if x = 1 ∨ x = n - 1 then true
    else mrSquare n x (s - 1)

/-- The base loop: false as soon as one base witnesses compositeness. -/
def mrAll (n d : Nat) (s : Nat) : List Nat → Bool
  | [] => true
  | a :: as => if mrBase n d s a then mrAll n d s as else false

/-- Miller-Rabin phase of is_prime_64 on the positive representative. -/
def isPrimeNat (n : Nat) : Bool :=
  match trialSmall n smallPrimes with
  | some b => b
  | none =>
    let d0 := n - 1
    let ds := split2 d0 d0 0
    mrAll n ds.1 ds.2 mrBases

/-- is_prime_64 from the source: guard n < 2, trial division by the fixed
small-prime list, then deterministic Miller-Rabin over the fixed base list. -/
def is_prime_64 (n : Int) : Bool :=
  if n < 2 then false else isPrimeNat n.toNat

/-! ### Rule evaluation: passes_forbidden (source lines 48-52) -/

/-- A forbidden congruence (modulus, forbidden residue), source line 46. -/
abbrev ForbiddenCongruence := Int × Int

/-- passes_forbidden from the source: false as soon as one rule (m, r) has
n % m == r, true when every rule has been checked without a match. -/
def passes_forbidden (n : Int) : List ForbiddenCongruence → Bool
  | [] => true
  | (m, r) :: rest => if n % m = r then false else passes_forbidden n rest

/-! ### Wheel construction: build_wheel (source lines 57-73) -/

/-- The frozen Wheel dataclass from the source. -/
structure Wheel where
  M : Int
  residues : List Int
  forbidden : List ForbiddenCongruence
deriving DecidableEq

/-- The ascending integers lo, lo+1, ..., lo+k-1: the value of Python
range(M) (with lo = 0) as a list of Int, built head-first. -/
def intRange (k : Nat) (lo : Int) : List Int :=
  match k with
  | 0 => []
  | k + 1 => lo :: intRange k (lo + 1)

/-- The deduplicating accumulation loop of build_wheel: the list of distinct
moduli in first-seen order paired with their running product. -/
def wheelAcc (forbidden : List ForbiddenCongruence) : List Int × Int :=
  forbidden.foldl
    (fun acc p => if p.1 ∈ acc.1 then acc else (acc.1 ++ [p.1], acc.2 * p.1))
    ([], 1)

/-- build_wheel from the source: M is the product of distinct moduli, the
residues are the r in range(M) passing every rule (Python range(M) is empty
when M is not positive, matching Int.toNat), and the rules are retained. -/
def build_wheel (forbidden : List ForbiddenCongruence) : Wheel :=
  let M := (wheelAcc forbidden).2
  let residues :=
    (intRange M.toNat 0).filter (fun r => passes_forbidden r forbidden)
  { M := M, residues := residues, forbidden := forbidden }

/-! ### Candidate stream: candidate_stream (source lines 78-87)

Denotational form: the list of values emitted while the outer loop runs over
a given number of blocks q = start // M, start // M + 1, ... -/

/-- One iteration of the outer while-loop body: candidates q*M + r for the
survivors r in order, keeping those that reach start. -/
def candBlock (w : Wheel) (start q : Int) : List Int :=
  (w.residues.map (fun r => q * w.M + r)).filter (fun n => start ≤ n)

/-- The emissions of `blocks` consecutive outer-loop iterations beginning at
block index q. -/
def candRunFrom (w : Wheel) (start : Int) (q : Int) : Nat → List Int
  | 0 => []
  | blocks + 1 => candBlock w start q ++ candRunFrom w start (q + 1) blocks

/-- candidate_stream truncated to its first `blocks` blocks: the outer loop
starts at q = start // M (Python floor division; M is positive for every
wheel built from well-formed rules). -/
def candRun (w : Wheel) (start : Int) (blocks : Nat) : List Int :=
  candRunFrom w start (start / w.M) blocks

/-! ### Prime stream: primes (source lines 90-101) -/

/-- The default rule list substituted for a missing `forbidden` argument. -/
def defaultForbidden : List ForbiddenCongruence :=
  [(2, 0), (3, 0), (5, 0), (7, 0), (11, 0), (13, 0)]

/-- primes from the source, truncated to the candidates of the first `blocks`
wheel blocks: build the wheel once, then keep the candidates that pass the
secondary rule re-check and the primality test (the source's
`continue` / `yield` pair is exactly a filter by the conjunction). -/
def primesRun (forbidden : List ForbiddenCongruence) (start : Int)
    (blocks : Nat) : List Int :=
  let wheel := build_wheel forbidden
  (candRun wheel start blocks).filter
    (fun n => passes_forbidden n wheel.forbidden && is_prime_64 n)

/-! ### Operational model of candidate_stream

The generator's suspension structure, made explicit: the cursor is the
current block index together with the survivors not yet visited in the
current block.  Each small step performs one iteration of the inner loop
(emitting the candidate or skipping it) or wraps to the next block. -/

/-- Cursor state of a running candidate_stream generator. -/
structure GenState where
  q : Int
  rs : List Int
deriving DecidableEq

/-- Small-step relation of the candidate_stream loop body.  An `emit` step
yields the candidate, a `skip` step drops a candidate below start, a `wrap`
step executes `q += 1` and re-enters the inner loop. -/
inductive CandStep (w : Wheel) (start : Int) :
    GenState → GenState → Option Int → Prop
  | emit (q r : Int) (rest : List Int) (h : start ≤ q * w.M + r) :
      CandStep w start ⟨q, r :: rest⟩ ⟨q, rest⟩ (some (q * w.M + r))
  | skip (q r : Int) (rest : List Int) (h : ¬ start ≤ q * w.M + r) :
      CandStep w start ⟨q, r :: rest⟩ ⟨q, rest⟩ none
  | wrap (q : Int) :
      CandStep w start ⟨q, []⟩ ⟨q + 1, w.residues⟩ none

/-- A finite run of the generator: the list of per-step outputs. -/
inductive CandTrace (w : Wheel) (start : Int) :
    GenState → List (Option Int) → GenState → Prop
  | nil (s : GenState) : CandTrace w start s [] s
  | cons {s s1 s2 : GenState} {o : Option Int} {os : List (Option Int)}
      (hstep : CandStep w start s s1 o) (htail : CandTrace w start s1 os s2) :
      CandTrace w start s (o :: os) s2

/-- The state a fresh invocation of candidate_stream starts from:
q = start // M, inner loop about to traverse the survivors. -/
def initState (w : Wheel) (start : Int) : GenState :=
  ⟨start / w.M, w.residues⟩

/-- Executable form of one small step (used to build concrete traces). -/
def stepFn (w : Wheel) (start : Int) : GenState → GenState × Option Int
  | ⟨q, []⟩ => (⟨q + 1, w.residues⟩, none)
  | ⟨q, r :: rest⟩ =>
    if start ≤ q * w.M + r then (⟨q, rest⟩, some (q * w.M + r))
    else (⟨q, rest⟩, none)

/-- Outputs of n executable steps from a state. -/
def runOuts (w : Wheel) (start : Int) : Nat → GenState → List (Option Int)
  | 0, _ => []
  | n + 1, s => (stepFn w start s).2 :: runOuts w start n (stepFn w start s).1

/-- Final state after n executable steps. -/
def runState (w : Wheel) (start : Int) : Nat → GenState → GenState
  | 0, s => s
  | n + 1, s => runState w start n (stepFn w start s).1

/-! ### Error-checked variant of is_prime_64

Same control flow as is_prime_64, but every division, remainder and modular
power carries the check Python performs at run time: a remainder by 0 or a
three-argument pow with modulus 0 raises, modelled as `none`.  All other
arithmetic on Python ints is total. -/

/-- Remainder with Python's ZeroDivisionError made explicit. -/
def modChecked (a b : Nat) : Option Nat :=
  if b = 0 then none else some (a % b)

/-- Floor division with Python's ZeroDivisionError made explicit. -/
def divChecked (a b : Nat) : Option Nat :=
  if b = 0 then none else some (a / b)

/-- Remainder on Int with Python's ZeroDivisionError made explicit. -/
def imodChecked (a b : Int) : Option Int :=
  if b = 0 then none else some (a % b)

/-- Checked small-prime loop. -/
def trialSmallChecked (n : Nat) : List Nat → Option (Option Bool)
  | [] => some none
  | p :: ps =>
    if n = p then some (some true)
    else
      match modChecked n p with
      | none => none
      | some m =>
        if m = 0 then some (some false) else trialSmallChecked n ps

/-- Checked odd-part extraction loop. -/
def split2Checked (fuel : Nat) (d : Nat) (s : Nat) : Option (Nat × Nat) :=
  match fuel with
  | 0 => some (d, s)
  | fuel + 1 =>
    match modChecked d 2 with
    | none => none
    | some m =>
      if m = 0 then
        match divChecked d 2 with
        | none => none
        | some d2 => split2Checked fuel d2 (s + 1)
      else some (d, s)

/-- Checked pow(a, d, n): none exactly when the modulus is 0. -/
def powModChecked (fuel : Nat) (a d n : Nat) : Option Nat :=
  if n = 0 then none else some (powMod fuel a d n)

/-- Checked inner squaring loop. -/
def mrSquareChecked (n x : Nat) : Nat → Option Bool
  | 0 => some false
  | k + 1 =>
    match modChecked (x * x) n with
    | none => none
    | some x2 => if x2 = n - 1 then some true else mrSquareChecked n x2 k

/-- Checked Miller-Rabin base. -/
def mrBaseChecked (n d : Nat) (s : Nat) (a : Nat) : Option Bool :=
  match modChecked a n with
  | none => none
  | some a =>
    if a = 0 then some true
    else
      match powModChecked d a d n with
      | none => none
      | some x =>
        if x = 1 ∨ x = n - 1 then some true
        else mrSquareChecked n x (s - 1)

/-- Checked base loop. -/
def mrAllChecked (n d : Nat) (s : Nat) : List Nat → Option Bool
  | [] => some true
  | a :: as =>
    match mrBaseChecked n d s a with
    | none => none
    | some true => mrAllChecked n d s as
    | some false => some false

/-- Checked Miller-Rabin phase. -/
def isPrimeNatChecked (n : Nat) : Option Bool :=
  match trialSmallChecked n smallPrimes with
  | none => none
  | some (some b) => some b
  | some none =>
    let d0 := n - 1
    match split2Checked d0 d0 0 with
    | none => none
    | some ds => mrAllChecked n ds.1 ds.2 mrBases

/-- is_prime_64 with every arithmetic error site made explicit: `none` would
mean a run-time arithmetic error in the source. -/
def is_prime_64_checked (n : Int) : Option Bool :=
  if n < 2 then some false else isPrimeNatChecked n.toNat

/-! ### Well-formedness of a wheel

The invariants section 3 of the specification gives a Wheel value: a
positive period and an ascending list of survivors inside one period.
build_wheel establishes them for any rule list with positive moduli. -/

/-- Wheel invariants from the data model: positive period, strictly
ascending survivors, survivors inside one period. -/
def Wheel.WF (w : Wheel) : Prop :=
  1 ≤ w.M ∧ w.residues.Pairwise (· < ·) ∧
    ∀ r ∈ w.residues, 0 ≤ r ∧ r < w.M

/-! ## Helper lemmas -/

theorem mem_intRange {k : Nat} {lo n : Int} :
    n ∈ intRange k lo ↔ lo ≤ n ∧ n < lo + k := by
  induction k generalizing lo with
  | zero => simp [intRange]
  | succ k ih =>
    simp only [intRange, List.mem_cons, ih]
    constructor
    · rintro (rfl | ⟨h1, h2⟩) <;> omega
    · rintro ⟨h1, h2⟩
      rcases eq_or_lt_of_le h1 with rfl | h1
      · exact Or.inl rfl
      · right; omega

theorem intRange_pairwise (k : Nat) (lo : Int) :
    (intRange k lo).Pairwise (· < ·) := by
  induction k generalizing lo with
  | zero => exact List.Pairwise.nil
  | succ k ih =>
    refine List.Pairwise.cons ?_ (ih (lo + 1))
    intro n hn
    have := mem_intRange.mp hn
    omega

theorem passes_forbidden_eq_all (n : Int) (rules : List ForbiddenCongruence) :
    passes_forbidden n rules = rules.all (fun p => !(n % p.1 == p.2)) := by
  induction rules with
  | nil => rfl
  | cons p rest ih =>
    obtain ⟨m, r⟩ := p
    by_cases h : n % m = r <;> simp [passes_forbidden, h, ih]

theorem passes_forbidden_false_iff (n : Int) (rules : List ForbiddenCongruence) :
    passes_forbidden n rules = false ↔ ∃ p ∈ rules, n % p.1 = p.2 := by
  rw [passes_forbidden_eq_all]
  simp

/-- If every modulus of `rules` divides k, rule evaluation only sees n mod k. -/
theorem passes_forbidden_emod (n k : Int) (rules : List ForbiddenCongruence)
    (hdvd : ∀ p ∈ rules, p.1 ∣ k) :
    passes_forbidden (n % k) rules = passes_forbidden n rules := by
  induction rules with
  | nil => rfl
  | cons p rest ih =>
    obtain ⟨m, r⟩ := p
    have hm : m ∣ k := hdvd (m, r) (List.mem_cons_self _ _)
    have hmod : n % k % m = n % m := Int.emod_emod_of_dvd n hm
    simp only [passes_forbidden, hmod]
    exact if_congr Iff.rfl rfl (ih fun p hp => hdvd p (List.mem_cons_of_mem _ hp))

/-- Invariant of the deduplicating fold in build_wheel: every modulus already
collected divides the running product, and afterwards every rule's modulus
divides the final product. -/
theorem wheelAcc_fold_dvd (rules : List ForbiddenCongruence)
    (acc : List Int × Int) (hinv : ∀ x ∈ acc.1, x ∣ acc.2) :
    (∀ x ∈ acc.1,
      x ∣ (rules.foldl
        (fun acc p => if p.1 ∈ acc.1 then acc else (acc.1 ++ [p.1], acc.2 * p.1))
        acc).2) ∧
    (∀ p ∈ rules,
      p.1 ∣ (rules.foldl
        (fun acc p => if p.1 ∈ acc.1 then acc else (acc.1 ++ [p.1], acc.2 * p.1))
        acc).2) := by
  induction rules generalizing acc with
  | nil => exact ⟨hinv, by simp⟩
  | cons p rest ih =>
    obtain ⟨m, r⟩ := p
    simp only [List.foldl_cons]
    by_cases hmem : m ∈ acc.1
    · simp only [hmem, if_pos]
      obtain ⟨h1, h2⟩ := ih acc hinv
      refine ⟨h1, ?_⟩
      intro q hq
      rcases List.mem_cons.mp hq with rfl | hq
      · exact h1 m hmem
      · exact h2 q hq
    · simp only [hmem, if_neg, not_false_iff]
      have hinv2 : ∀ x ∈ acc.1 ++ [m], x ∣ acc.2 * m := by
        intro x hx
        rcases List.mem_append.mp hx with hx | hx
        · exact (hinv x hx).mul_right m
        · simp only [List.mem_singleton] at hx
          subst hx
          exact Dvd.intro_left acc.2 rfl
      obtain ⟨h1, h2⟩ := ih (acc.1 ++ [m], acc.2 * m) hinv2
      refine ⟨fun x hx => h1 x (List.mem_append_left _ hx), ?_⟩
      intro q hq
      rcases List.mem_cons.mp hq with rfl | hq
      · exact h1 m (List.mem_append_right _ (List.mem_singleton_self m))
      · exact h2 q hq

theorem wheelAcc_dvd (rules : List ForbiddenCongruence) :
    ∀ p ∈ rules, p.1 ∣ (wheelAcc rules).2 :=
  (wheelAcc_fold_dvd rules ([], 1) (by simp)).2

/-- The running product stays at least 1 when all moduli are at least 1. -/
theorem wheelAcc_fold_pos (rules : List ForbiddenCongruence)
    (acc : List Int × Int) (hpos : 1 ≤ acc.2)
    (hrules : ∀ p ∈ rules, 1 ≤ p.1) :
    1 ≤ (rules.foldl
      (fun acc p => if p.1 ∈ acc.1 then acc else (acc.1 ++ [p.1], acc.2 * p.1))
      acc).2 := by
  induction rules generalizing acc with
  | nil => exact hpos
  | cons p rest ih =>
    simp only [List.foldl_cons]
    have hrest : ∀ q ∈ rest, 1 ≤ q.1 := fun q hq => hrules q (List.mem_cons_of_mem _ hq)
    by_cases hmem : p.1 ∈ acc.1
    · simp only [hmem, if_pos]
      exact ih acc hpos hrest
    · simp only [hmem, if_neg, not_false_iff]
      refine ih _ ?_ hrest
      have hp : 1 ≤ p.1 := hrules p (List.mem_cons_self _ _)
      calc (1 : Int) = 1 * 1 := (one_mul 1).symm
        _ ≤ acc.2 * p.1 :=
          mul_le_mul hpos hp zero_le_one (le_trans zero_le_one hpos)

theorem wheelAcc_pos (rules : List ForbiddenCongruence)
    (hrules : ∀ p ∈ rules, 1 ≤ p.1) : 1 ≤ (wheelAcc rules).2 :=
  wheelAcc_fold_pos rules ([], 1) le_rfl hrules

theorem build_wheel_M (rules : List ForbiddenCongruence) :
    (build_wheel rules).M = (wheelAcc rules).2 := rfl

theorem build_wheel_forbidden_eq (rules : List ForbiddenCongruence) :
    (build_wheel rules).forbidden = rules := rfl

theorem build_wheel_M_pos (rules : List ForbiddenCongruence)
    (hrules : ∀ p ∈ rules, 1 ≤ p.1) : 1 ≤ (build_wheel rules).M :=
  wheelAcc_pos rules hrules

theorem build_wheel_dvd (rules : List ForbiddenCongruence) :
    ∀ p ∈ rules, p.1 ∣ (build_wheel rules).M :=
  wheelAcc_dvd rules

theorem mem_build_wheel_residues (rules : List ForbiddenCongruence) {r : Int}
    (hM : 1 ≤ (build_wheel rules).M) :
    r ∈ (build_wheel rules).residues ↔
      0 ≤ r ∧ r < (build_wheel rules).M ∧ passes_forbidden r rules = true := by
  have hcast : ((build_wheel rules).M.toNat : Int) = (build_wheel rules).M :=
    Int.toNat_of_nonneg (by omega)
  show r ∈ (intRange (build_wheel rules).M.toNat 0).filter
      (fun x => passes_forbidden x rules) ↔ _
  rw [List.mem_filter, mem_intRange, hcast]
  constructor
  · rintro ⟨⟨h1, h2⟩, h3⟩; exact ⟨h1, by omega, h3⟩
  · rintro ⟨h1, h2, h3⟩; exact ⟨⟨h1, by omega⟩, h3⟩

theorem build_wheel_WF (rules : List ForbiddenCongruence)
    (hrules : ∀ p ∈ rules, 1 ≤ p.1) : (build_wheel rules).WF := by
  have hM := build_wheel_M_pos rules hrules
  refine ⟨hM, ?_, ?_⟩
  · exact List.Pairwise.filter _ (intRange_pairwise _ 0)
  · intro r hr
    have := (mem_build_wheel_residues rules hM).mp hr
    exact ⟨this.1, this.2.1⟩

theorem mem_candBlock {w : Wheel} {start q n : Int} :
    n ∈ candBlock w start q ↔
      start ≤ n ∧ ∃ r ∈ w.residues, n = q * w.M + r := by
  simp only [candBlock, List.mem_filter, List.mem_map, decide_eq_true_eq]
  constructor
  · rintro ⟨⟨r, hr, rfl⟩, h2⟩
    exact ⟨h2, r, hr, rfl⟩
  · rintro ⟨h2, r, hr, rfl⟩
    exact ⟨⟨r, hr, rfl⟩, h2⟩

theorem candBlock_lower {w : Wheel} (hwf : w.WF) {start q n : Int}
    (hn : n ∈ candBlock w start q) : q * w.M ≤ n := by
  obtain ⟨-, r, hr, rfl⟩ := mem_candBlock.mp hn
  have := (hwf.2.2 r hr).1
  omega

theorem candBlock_upper {w : Wheel} (hwf : w.WF) {start q n : Int}
    (hn : n ∈ candBlock w start q) : n < (q + 1) * w.M := by
  obtain ⟨-, r, hr, rfl⟩ := mem_candBlock.mp hn
  have := (hwf.2.2 r hr).2
  have : q * w.M + r < q * w.M + w.M := by omega
  calc q * w.M + r < q * w.M + w.M := this
    _ = (q + 1) * w.M := by ring

theorem candBlock_emod {w : Wheel} (hwf : w.WF) {start q n : Int}
    (hn : n ∈ candBlock w start q) : n % w.M ∈ w.residues := by
  obtain ⟨-, r, hr, rfl⟩ := mem_candBlock.mp hn
  obtain ⟨h0, h1⟩ := hwf.2.2 r hr
  have : (q * w.M + r) % w.M = r := by
    rw [add_comm, Int.add_mul_emod_self]
    exact Int.emod_eq_of_lt h0 h1
  rwa [this]

theorem candBlock_pairwise {w : Wheel} (hwf : w.WF) (start q : Int) :
    (candBlock w start q).Pairwise (· < ·) := by
  refine List.Pairwise.filter _ ?_
  rw [List.pairwise_map]
  exact hwf.2.1.imp (by intro a b h; omega)

theorem mem_candRunFrom {w : Wheel} {start q n : Int} {blocks : Nat} :
    n ∈ candRunFrom w start q blocks ↔
      ∃ k : Nat, k < blocks ∧ n ∈ candBlock w start (q + k) := by
  induction blocks generalizing q with
  | zero => simp [candRunFrom]
  | succ b ih =>
    simp only [candRunFrom, List.mem_append, ih]
    constructor
    · rintro (h | ⟨k, hk, hmem⟩)
      · exact ⟨0, by omega, by simpa using h⟩
      · refine ⟨k + 1, by omega, ?_⟩
        have : q + 1 + (k : Int) = q + ((k : Int) + 1) := by ring
        rw [this] at hmem
        simpa using hmem
    · rintro ⟨k, hk, hmem⟩
      match k with
      | 0 => left; simpa using hmem
      | k + 1 =>
        right
        refine ⟨k, by omega, ?_⟩
        have : q + ((k : Int) + 1) = q + 1 + (k : Int) := by ring
        rw [show ((k + 1 : Nat) : Int) = (k : Int) + 1 by push_cast; ring,
          this] at hmem
        exact hmem

theorem candRunFrom_lower {w : Wheel} (hwf : w.WF) {start q n : Int}
    {blocks : Nat} (hn : n ∈ candRunFrom w start q blocks) : q * w.M ≤ n := by
  obtain ⟨k, -, hmem⟩ := mem_candRunFrom.mp hn
  have h1 := candBlock_lower hwf hmem
  have h2 : q * w.M ≤ (q + k) * w.M := by
    have hM : (0 : Int) ≤ w.M := by have := hwf.1; omega
    have : (q : Int) ≤ q + k := by omega
    exact mul_le_mul_of_nonneg_right this hM
  omega

theorem candRunFrom_pairwise {w : Wheel} (hwf : w.WF) (start q : Int)
    (blocks : Nat) : (candRunFrom w start q blocks).Pairwise (· < ·) := by
  induction blocks generalizing q with
  | zero => exact List.Pairwise.nil
  | succ b ih =>
    rw [candRunFrom, List.pairwise_append]
    refine ⟨candBlock_pairwise hwf start q, ih (q + 1), ?_⟩
    intro a ha b hb
    have h1 := candBlock_upper hwf ha
    have h2 := candRunFrom_lower hwf hb
    omega

theorem mem_candRun_iff {w : Wheel} (hwf : w.WF) {start n : Int}
    {blocks : Nat} :
    n ∈ candRun w start blocks ↔
      start ≤ n ∧ n % w.M ∈ w.residues ∧
        n < (start / w.M + blocks) * w.M := by
  have hM : (1 : Int) ≤ w.M := hwf.1
  constructor
  · intro hn
    obtain ⟨k, hk, hmem⟩ := mem_candRunFrom.mp hn
    have hstart : start ≤ n := (mem_candBlock.mp hmem).1
    refine ⟨hstart, candBlock_emod hwf hmem, ?_⟩
    have h1 := candBlock_upper hwf hmem
    have h2 : (start / w.M + k + 1) * w.M ≤ (start / w.M + blocks) * w.M := by
      refine mul_le_mul_of_nonneg_right ?_ (by omega)
      omega
    omega
  · rintro ⟨h1, h2, h3⟩
    rw [candRun, mem_candRunFrom]
    set q0 := start / w.M with hq0
    have hq : q0 ≤ n / w.M := Int.ediv_le_ediv (by omega) h1
    have hq2 : n / w.M < q0 + blocks := (Int.ediv_lt_iff_lt_mul (by omega)).mpr h3
    refine ⟨(n / w.M - q0).toNat, by omega, ?_⟩
    rw [mem_candBlock]
    refine ⟨h1, n % w.M, h2, ?_⟩
    have hs : q0 + ((n / w.M - q0).toNat : Int) = n / w.M := by omega
    rw [hs]
    have h4 := Int.ediv_add_emod n w.M
    have h5 : n / w.M * w.M = w.M * (n / w.M) := mul_comm _ _
    omega

theorem candRun_eventually {w : Wheel} (hwf : w.WF) {start n : Int}
    (h1 : start ≤ n) (h2 : n % w.M ∈ w.residues) :
    ∃ blocks : Nat, n ∈ candRun w start blocks := by
  have hM : (1 : Int) ≤ w.M := hwf.1
  refine ⟨(n + 1 - (start / w.M) * w.M).toNat, ?_⟩
  rw [mem_candRun_iff hwf]
  refine ⟨h1, h2, ?_⟩
  set q0 := start / w.M with hq0
  have hfloor : q0 * w.M ≤ start := by
    have h4 := Int.ediv_add_emod start w.M
    have h5 := Int.emod_nonneg start (show w.M ≠ 0 by omega)
    have h6 : q0 * w.M = w.M * (start / w.M) := mul_comm _ _
    omega
  set B : Nat := (n + 1 - q0 * w.M).toNat with hB
  have hBval : (B : Int) = n + 1 - q0 * w.M := by omega
  have hBM : (B : Int) ≤ (B : Int) * w.M := by
    nlinarith [Int.ofNat_nonneg B]
  calc n < q0 * w.M + (B : Int) := by omega
    _ ≤ q0 * w.M + (B : Int) * w.M := by omega
    _ = (q0 + B) * w.M := by ring

theorem candRun_empty_of_no_residues (w : Wheel) (start : Int)
    (h : w.residues = []) (blocks : Nat) : candRun w start blocks = [] := by
  rw [candRun]
  generalize start / w.M = q
  induction blocks generalizing q with
  | zero => rfl
  | succ b ih => simp [candRunFrom, candBlock, h, ih]

/-- Every relational step agrees with the executable step function. -/
theorem candStep_eq_stepFn {w : Wheel} {start : Int} {s s1 : GenState}
    {o : Option Int} (hstep : CandStep w start s s1 o) :
    (s1, o) = stepFn w start s := by
  cases hstep with
  | emit q r rest h => simp [stepFn, h]
  | skip q r rest h => simp [stepFn, h]
  | wrap q => rfl

/-- The step relation is total: the executable step is always a step. -/
theorem stepFn_candStep (w : Wheel) (start : Int) (s : GenState) :
    CandStep w start s (stepFn w start s).1 (stepFn w start s).2 := by
  obtain ⟨q, rs⟩ := s
  cases rs with
  | nil => exact CandStep.wrap q
  | cons r rest =>
    by_cases h : start ≤ q * w.M + r
    · simp only [stepFn, if_pos h]
      exact CandStep.emit q r rest h
    · simp only [stepFn, if_neg h]
      exact CandStep.skip q r rest h

/-- Two runs of equal length from the same state produce the same outputs
and land in the same state. -/
theorem candTrace_det {w : Wheel} {start : Int} {s : GenState}
    {os1 os2 : List (Option Int)} {s1 s2 : GenState}
    (h1 : CandTrace w start s os1 s1) (h2 : CandTrace w start s os2 s2)
    (hlen : os1.length = os2.length) : os1 = os2 ∧ s1 = s2 := by
  induction h1 generalizing os2 with
  | nil _ =>
    cases h2 with
    | nil => exact ⟨rfl, rfl⟩
    | cons _ _ => simp at hlen
  | cons hstep htail ih =>
    cases h2 with
    | nil => simp at hlen
    | cons hstep2 htail2 =>
      have e1 := candStep_eq_stepFn hstep
      have e2 := candStep_eq_stepFn hstep2
      rw [← e1] at e2
      injection e2 with hs ho
      subst hs
      obtain ⟨hos, hfin⟩ := ih htail2 (by simpa using hlen)
      exact ⟨by rw [ho, hos], hfin⟩

/-- Executing n steps yields a trace of the step relation. -/
theorem runOuts_trace (w : Wheel) (start : Int) (n : Nat) (s : GenState) :
    CandTrace w start s (runOuts w start n s) (runState w start n s) := by
  induction n generalizing s with
  | zero => exact CandTrace.nil s
  | succ n ih =>
    exact CandTrace.cons (stepFn_candStep w start s) (ih (stepFn w start s).1)

theorem trialSmallChecked_eq (n : Nat) (ps : List Nat)
    (hps : ∀ p ∈ ps, p ≠ 0) :
    trialSmallChecked n ps = some (trialSmall n ps) := by
  induction ps with
  | nil => rfl
  | cons p rest ih =>
    have hp : p ≠ 0 := hps p (List.mem_cons_self _ _)
    have hrest : ∀ q ∈ rest, q ≠ 0 := fun q hq => hps q (List.mem_cons_of_mem _ hq)
    simp only [trialSmallChecked, trialSmall, modChecked, if_neg hp]
    by_cases h1 : n = p
    · simp [h1]
    · by_cases h2 : n % p = 0 <;> simp [h1, h2, ih hrest]

theorem split2Checked_eq (fuel d s : Nat) :
    split2Checked fuel d s = some (split2 fuel d s) := by
  induction fuel generalizing d s with
  | zero => rfl
  | succ fuel ih =>
    simp only [split2Checked, split2, modChecked, divChecked]
    by_cases h : d % 2 = 0 <;> simp [h, ih]

theorem mrSquareChecked_eq (n : Nat) (hn : n ≠ 0) (x k : Nat) :
    mrSquareChecked n x k = some (mrSquare n x k) := by
  induction k generalizing x with
  | zero => rfl
  | succ k ih =>
    simp only [mrSquareChecked, mrSquare, modChecked, if_neg hn]
    by_cases h : (x * x) % n = n - 1 <;> simp [h, ih]

theorem mrBaseChecked_eq (n : Nat) (hn : n ≠ 0) (d s a : Nat) :
    mrBaseChecked n d s a = some (mrBase n d s a) := by
  simp only [mrBaseChecked, mrBase, modChecked, powModChecked, if_neg hn]
  by_cases h1 : a % n = 0
  · simp [h1]
  · simp only [h1, if_neg, not_false_iff]
    by_cases h2 : powMod d (a % n) d n = 1 ∨ powMod d (a % n) d n = n - 1
    · simp [h2]
    · simp [h2, mrSquareChecked_eq n hn]

theorem mrAllChecked_eq (n : Nat) (hn : n ≠ 0) (d s : Nat) (as : List Nat) :
    mrAllChecked n d s as = some (mrAll n d s as) := by
  induction as with
  | nil => rfl
  | cons a rest ih =>
    simp only [mrAllChecked, mrAll, mrBaseChecked_eq n hn]
    by_cases h : mrBase n d s a = true
    · simp [h, ih]
    · simp only [Bool.not_eq_true] at h
      simp [h]

theorem isPrimeNatChecked_eq (n : Nat) (hn : 2 ≤ n) :
    isPrimeNatChecked n = some (isPrimeNat n) := by
  have hps : ∀ p ∈ smallPrimes, p ≠ 0 := by decide
  simp only [isPrimeNatChecked, isPrimeNat, trialSmallChecked_eq n smallPrimes hps,
    split2Checked_eq]
  cases trialSmall n smallPrimes with
  | none => exact mrAllChecked_eq n (by omega) _ _ _
  | some b => rfl

theorem primesRun_eq_filter (rules : List ForbiddenCongruence) (start : Int)
    (blocks : Nat) :
    primesRun rules start blocks =
      (candRun (build_wheel rules) start blocks).filter
        (fun n => passes_forbidden n rules && is_prime_64 n) := rfl

theorem mem_primesRun {rules : List ForbiddenCongruence} {start : Int}
    {blocks : Nat} {n : Int} :
    n ∈ primesRun rules start blocks ↔
      n ∈ candRun (build_wheel rules) start blocks ∧
        (passes_forbidden n rules && is_prime_64 n) = true :=
  List.mem_filter

/-! ## Claims -/

/-- Claim C2: for every rule list (with the data model's positive moduli;
repetitions and non-coprime moduli allowed) and every integer n, n is
excluded by the wheel built from the rules, that is n mod wheel.M is not a
member of wheel.residues, exactly when passes_forbidden(n, rules) is false.
The finite-period sieve equals direct rule evaluation for every n. -/
theorem wheel_excludes_iff_rule_fails (rules : List ForbiddenCongruence)
    (n : Int) (h : ∀ p ∈ rules, 1 ≤ p.1) :
    n % (build_wheel rules).M ∉ (build_wheel rules).residues ↔
      passes_forbidden n rules = false := by
  have hM := build_wheel_M_pos rules h
  have hpos : n % (build_wheel rules).M ∈ (build_wheel rules).residues ↔
      passes_forbidden n rules = true := by
    rw [mem_build_wheel_residues rules hM,
      passes_forbidden_emod n _ rules (build_wheel_dvd rules)]
    have h0 := Int.emod_nonneg n (show (build_wheel rules).M ≠ 0 by omega)
    have h1 := Int.emod_lt_of_pos n (show 0 < (build_wheel rules).M by omega)
    tauto
  rw [hpos, Bool.not_eq_true]

/-- Witness for C2 at rules [(2,0),(3,0)] and n = 7: the wheel has period 6
and survivors [1,5]; 7 mod 6 = 1 is a survivor and 7 passes both rules. -/
theorem wheel_excludes_iff_rule_fails_witness :
    (7 % (build_wheel [(2, 0), (3, 0)]).M ∉ (build_wheel [(2, 0), (3, 0)]).residues ↔
      passes_forbidden 7 [(2, 0), (3, 0)] = false) :=
  wheel_excludes_iff_rule_fails [(2, 0), (3, 0)] 7 (by decide)

/-- Claim C3 (failing on the code): with the default rules and start = 2 the
first ten values of primes() are 17, 19, 23, 29, 31, 37, 41, 43, 47, 53 and
not the 2, 3, 5, 7, 11, 13, 17, 19, 23, 29 the specification promises: each
default rule (p, 0) excludes the prime p itself from the wheel's survivors
and nothing ever re-includes the base primes 2, 3, 5, 7, 11, 13. -/
theorem default_primes_first_ten :
    (primesRun defaultForbidden 2 1).take 10 =
      [17, 19, 23, 29, 31, 37, 41, 43, 47, 53] ∧
    (primesRun defaultForbidden 2 1).take 10 ≠
      [2, 3, 5, 7, 11, 13, 17, 19, 23, 29] := by
  have h : (primesRun defaultForbidden 2 1).take 10 =
      [17, 19, 23, 29, 31, 37, 41, 43, 47, 53] := by rfl
  refine ⟨h, ?_⟩
  rw [h]
  decide

/-- Claim C4 counterexample: build_wheel applied to the single malformed rule
(2, 5), whose residue lies outside [0, 2), completes and returns a wheel
(period 2, survivors [0, 1], rule retained) instead of failing with an
InvalidRule error: the source performs no validation at all. -/
theorem build_wheel_tolerates_bad_residue :
    build_wheel [(2, 5)] = ⟨2, [0, 1], [(2, 5)]⟩ := by rfl

/-- Claim C4 amended: wheel construction never validates its rules; for any
rule list it completes and returns a wheel retaining exactly the given rules,
also when a pair is malformed, for example modulus 1 < 2, residue 7 outside
[0, 3), or even modulus 0, where the combined period becomes 0, the residue
scan over range(0) is empty and construction still completes without ever
dividing by the zero modulus. -/
theorem build_wheel_never_validates :
    (∀ rules : List ForbiddenCongruence, (build_wheel rules).forbidden = rules) ∧
    build_wheel [(1, 0)] = ⟨1, [], [(1, 0)]⟩ ∧
    build_wheel [(3, 7)] = ⟨3, [0, 1, 2], [(3, 7)]⟩ ∧
    build_wheel [(0, 0)] = ⟨0, [], [(0, 0)]⟩ :=
  ⟨fun _ => rfl, rfl, rfl, rfl⟩

/-- Claim C5: for every well-formed wheel and every start, the candidate
stream is strictly increasing, the values emitted while scanning any number
of blocks are exactly the integers n with start ≤ n, n mod M a survivor, and
n below the scanned horizon, and every integer at least start whose residue
survives is eventually emitted; nothing below start is ever emitted. -/
theorem candidate_stream_exact (w : Wheel) (start : Int) (hwf : w.WF) :
    (∀ blocks : Nat, (candRun w start blocks).Pairwise (· < ·)) ∧
    (∀ (blocks : Nat) (n : Int),
      n ∈ candRun w start blocks ↔
        start ≤ n ∧ n % w.M ∈ w.residues ∧
          n < (start / w.M + blocks) * w.M) ∧
    (∀ n : Int, start ≤ n → n % w.M ∈ w.residues →
      ∃ blocks : Nat, n ∈ candRun w start blocks) :=
  ⟨fun _ => candRunFrom_pairwise hwf start _ _,
   fun _ _ => mem_candRun_iff hwf,
   fun _ h1 h2 => candRun_eventually hwf h1 h2⟩

/-- Witness for C5 with the wheel of rules [(2,0),(3,0)] (period 6,
survivors [1,5]) and start 10, scanning 2 blocks: candRun is [11, 13, 17]
sorted, and 13 is characterized by the membership equivalence. -/
theorem candidate_stream_exact_witness :
    (candRun (build_wheel [(2, 0), (3, 0)]) 10 2).Pairwise (· < ·) ∧
    (13 ∈ candRun (build_wheel [(2, 0), (3, 0)]) 10 2 ↔
      (10 : Int) ≤ 13 ∧ (13 : Int) % (build_wheel [(2, 0), (3, 0)]).M ∈
          (build_wheel [(2, 0), (3, 0)]).residues ∧
        (13 : Int) < (10 / (build_wheel [(2, 0), (3, 0)]).M + 2) *
          (build_wheel [(2, 0), (3, 0)]).M) :=
  ⟨(candidate_stream_exact _ 10 (build_wheel_WF _ (by decide))).1 2,
   (candidate_stream_exact _ 10 (build_wheel_WF _ (by decide))).2.1 2 13⟩

/-- Claim C6: with rules [(2,0)] and start 2, the prime stream never
contains 2 (2 mod 2 = 0 is excluded and the secondary re-check rejects it),
and its first element is 3, over any nonzero number of scanned blocks. -/
theorem even_rule_stream_starts_at_three (blocks : Nat) :
    2 ∉ primesRun [(2, 0)] 2 blocks ∧
    (1 ≤ blocks → (primesRun [(2, 0)] 2 blocks).head? = some 3) := by
  constructor
  · intro hmem
    exact absurd (mem_primesRun.mp hmem).2 (by decide)
  · intro hb
    match blocks, hb with
    | b + 1, _ =>
      rw [primesRun_eq_filter]
      have h1 : candRun (build_wheel [(2, 0)]) 2 (b + 1) =
          3 :: candRunFrom (build_wheel [(2, 0)]) 2 2 b := rfl
      rw [h1, List.filter_cons_of_pos (by decide), List.head?_cons]

/-- Witness for C6 at one scanned block. -/
theorem even_rule_stream_starts_at_three_witness :
    2 ∉ primesRun [(2, 0)] 2 1 ∧ (primesRun [(2, 0)] 2 1).head? = some 3 :=
  ⟨(even_rule_stream_starts_at_three 1).1,
   (even_rule_stream_starts_at_three 1).2 (by decide)⟩

/-- Claim C7: when the wheel is built from exactly the rule list that the
prime filter re-checks, the secondary passes_forbidden re-check is
redundant: the prime stream equals, element for element, the candidate
stream filtered by the primality test alone. -/
theorem secondary_recheck_redundant (rules : List ForbiddenCongruence)
    (start : Int) (blocks : Nat) (h : ∀ p ∈ rules, 1 ≤ p.1) :
    primesRun rules start blocks =
      (candRun (build_wheel rules) start blocks).filter
        (fun n => is_prime_64 n) := by
  have hwf := build_wheel_WF rules h
  refine List.filter_congr ?_
  intro n hn
  obtain ⟨k, -, hmem⟩ := mem_candRunFrom.mp hn
  have hres : n % (build_wheel rules).M ∈ (build_wheel rules).residues :=
    candBlock_emod hwf hmem
  have hpass : passes_forbidden n rules = true := by
    rw [← passes_forbidden_emod n _ rules (build_wheel_dvd rules)]
    exact ((mem_build_wheel_residues rules hwf.1).mp hres).2.2
  show (passes_forbidden n rules && is_prime_64 n) = is_prime_64 n
  rw [hpass, Bool.true_and]

/-- Witness for C7 at rules [(2,0)], start 2, two blocks. -/
theorem secondary_recheck_redundant_witness :
    primesRun [(2, 0)] 2 2 =
      (candRun (build_wheel [(2, 0)]) 2 2).filter (fun n => is_prime_64 n) :=
  secondary_recheck_redundant [(2, 0)] 2 2 (by decide)

/-- Claim C8: the candidate generator is deterministic and restartable: two
independent runs of the small-step machine from the fresh initial state of
the same (wheel, start), for the same number of steps (1000 or any other),
produce identical output sequences; there is no other state than the cursor,
which each run owns. -/
theorem candidate_stream_deterministic (w : Wheel) (start : Int)
    (os1 os2 : List (Option Int)) (s1 s2 : GenState)
    (h1 : CandTrace w start (initState w start) os1 s1)
    (h2 : CandTrace w start (initState w start) os2 s2)
    (hlen : os1.length = os2.length) : os1 = os2 :=
  (candTrace_det h1 h2 hlen).1

/-- Witness for C8: a three-step executed run and a literal three-step trace
of the wheel of [(2,0)] from start 2 coincide: block 1 emits 3, the cursor
wraps, block 2 emits 5. -/
theorem candidate_stream_deterministic_witness :
    runOuts (build_wheel [(2, 0)]) 2 3 (initState (build_wheel [(2, 0)]) 2) =
      [some 3, none, some 5] := by
  have hEq : runOuts (build_wheel [(2, 0)]) 2 3
      (initState (build_wheel [(2, 0)]) 2) = [some 3, none, some 5] := by rfl
  exact candidate_stream_deterministic (build_wheel [(2, 0)]) 2 _ _ _ _
    (runOuts_trace _ 2 3 _) (hEq ▸ runOuts_trace _ 2 3 _) (by rw [hEq])

/-- Claim C9: if the rule set excludes every residue class, the wheel's
survivor list is empty and the candidate stream never yields an element, no
matter how many blocks the unbounded loop scans; the rules
[(2,0),(2,1)] produce exactly such a wheel. -/
theorem empty_survivors_no_emission :
    (∀ (w : Wheel) (start : Int) (blocks : Nat),
      w.residues = [] → candRun w start blocks = []) ∧
    (build_wheel [(2, 0), (2, 1)]).residues = [] :=
  ⟨fun w start blocks h => candRun_empty_of_no_residues w start h blocks,
   by rfl⟩

/-- Witness for C9: the wheel of [(2,0),(2,1)] emits nothing in 5 blocks
from start 2. -/
theorem empty_survivors_no_emission_witness :
    candRun (build_wheel [(2, 0), (2, 1)]) 2 5 = [] :=
  empty_survivors_no_emission.1 _ 2 5 (by rfl)

/-- Claim C10: is_prime_64 is total on all integers, however negative or
large: the checked variant, in which every remainder and every modular
power reports a divisor of zero as an error, returns some boolean, and that
boolean is the value of is_prime_64; no arithmetic error is reachable. -/
theorem is_prime_64_total (n : Int) :
    is_prime_64_checked n = some (is_prime_64 n) := by
  by_cases h : n < 2
  · simp [is_prime_64_checked, is_prime_64, h]
  · have h2 : 2 ≤ n.toNat := by omega
    simp [is_prime_64_checked, is_prime_64, h, isPrimeNatChecked_eq n.toNat h2]

end Aisu
